import Mathlib

/-!
# Verification of the Carol request-template engine

This file embeds the template/group merge and placeholder-extraction engine
of the Carol repository.  The compile-time type-level functions of
`src/api/shared/RestApiTypes.ts` and `src/utils/TypeUtils.ts`
(`SubstringsFromString`, `SubstringsFromObject`, `IsKeyPathValid`,
`ExtractGroupNames`, `ExtractStringValuesFromGroupTemplate`, ...) are
translated into executable Lean functions over a JSON-like value type, and
the runtime engine the specification describes (registry lookup, group
resolution, leaf-wise merge, placeholder substitution, `toQueryString`) is
modelled on top of them.
-/

/-- A template value: the value domain of `RestApiRequestTemplate` objects.
String leaves may contain `{variable}` placeholders; `int` and `bool`
leaves model the scalar passthrough values (e.g. `AUTH: true`); `obj`
models nested objects such as `HEADERS`. -/
inductive TVal where
  | str (s : String)
  | int (n : Int)
  | bool (b : Bool)
  | obj (fields : List (String × TVal))

/-- First-match association-list lookup, the semantics of reading a key of a
TypeScript object literal. -/
def lookupKey {α : Type} : List (String × α) → String → Option α
  | [], _ => none
  | (k, v) :: rest, q => if k = q then some v else lookupKey rest q

/-- Splits a character list at the first occurrence of `c`:
`splitAtChar c s = some (l, r)` when `s = l ++ c :: r` and `c ∉ l`.
This is the semantics of matching the template-literal pattern
`S extends [L][c][R]` in TypeScript, which binds `L` to the text before
the first occurrence of the delimiter. -/
def splitAtChar (c : Char) : List Char → Option (List Char × List Char)
  | [] => none
  | x :: xs =>
    if x = c then some ([], xs)
    else match splitAtChar c xs with
      | some (l, r) => some (x :: l, r)
      | none => none

theorem splitAtChar_eq {c : Char} :
    ∀ {s l r : List Char}, splitAtChar c s = some (l, r) →
      s = l ++ c :: r ∧ c ∉ l := by
  intro s
  induction s with
  | nil => intro l r h; simp [splitAtChar] at h
  | cons x xs ih =>
    intro l r h
    by_cases hx : x = c
    · simp [splitAtChar, hx] at h
      obtain ⟨hl, hr⟩ := h
      subst hl; subst hr; subst hx
      simp
    · simp [splitAtChar, hx] at h
      cases hs : splitAtChar c xs with
      | none => rw [hs] at h; simp at h
      | some p =>
        rw [hs] at h
        obtain ⟨l', r'⟩ := p
        simp at h
        obtain ⟨hl, hr⟩ := h
        obtain ⟨hxs, hc⟩ := ih hs
        subst hl; subst hr
        constructor
        · simp [hxs]
        · simp [hc]
          intro hcx
          exact hx hcx.symm

theorem splitAtChar_none {c : Char} :
    ∀ {s : List Char}, splitAtChar c s = none → c ∉ s := by
  intro s
  induction s with
  | nil => intro _; simp
  | cons x xs ih =>
    intro h
    by_cases hx : x = c
    · simp [splitAtChar, hx] at h
    · simp [splitAtChar, hx] at h
      cases hs : splitAtChar c xs with
      | none =>
        simp [List.mem_cons]
        constructor
        · intro hq; exact hx hq.symm
        · exact ih hs
      | some p => rw [hs] at h; simp at h

theorem splitAtChar_of_not_mem {c : Char} {s : List Char} (h : c ∉ s) :
    splitAtChar c s = none := by
  cases hs : splitAtChar c s with
  | none => rfl
  | some p =>
    obtain ⟨l, r⟩ := p
    obtain ⟨heq, _⟩ := splitAtChar_eq hs
    exfalso
    apply h
    rw [heq]
    simp

theorem splitAtChar_append_of_not_mem {c : Char} {l r : List Char} (h : c ∉ l) :
    splitAtChar c (l ++ c :: r) = some (l, r) := by
  induction l with
  | nil => simp [splitAtChar]
  | cons x xs ih =>
    have hx : x ≠ c := by
      intro hq; exact h (by simp [hq])
    have hxs : c ∉ xs := by
      intro hq; exact h (by simp [hq])
    simp [splitAtChar, hx, ih hxs]

/-- One matching step of the scanner `SubstringsFromString` from
`TypeUtils.ts` (lines 364–373): the TypeScript pattern
``S extends `${L}${SD}${I}${ED}${R}` `` with `SD = "{"`, `ED = "}"`.
It finds the first `'{'`, then the first `'}'` after it, and returns the
name in between together with the remaining text `L ++ R`. -/
def stepScan (s : List Char) : Option (List Char × List Char) :=
  match splitAtChar '{' s with
  | none => none
  | some (l, r) =>
    match splitAtChar '}' r with
    | none => none
    | some (n, r') => some (n, l ++ r')

theorem stepScan_length {s n rest : List Char} (h : stepScan s = some (n, rest)) :
    rest.length < s.length := by
  unfold stepScan at h
  split at h
  · simp at h
  · rename_i l r h1
    split at h
    · simp at h
    · rename_i m r' h2
      simp at h
      obtain ⟨hn, hrest⟩ := h
      obtain ⟨hs1, _⟩ := splitAtChar_eq h1
      obtain ⟨hs2, _⟩ := splitAtChar_eq h2
      subst hrest
      rw [hs1, hs2]
      simp
      omega

/-- Fuel-indexed scanner loop: with enough fuel it implements the
tail recursion of `SubstringsFromString` (accumulating each extracted
name and rescanning `L ++ R`). -/
def scanAux : Nat → List Char → List (List Char)
  | 0, _ => []
  | fuel + 1, s =>
    match stepScan s with
    | none => []
    | some (n, rest) => n :: scanAux fuel rest

/-- The names found between `{` and `}` by the `SubstringsFromString`
scanner, in extraction order (the string's length is always enough fuel,
because every step removes at least the two delimiters). -/
def scanChars (s : List Char) : List (List Char) := scanAux s.length s

theorem scanAux_congr :
    ∀ (fuel₁ fuel₂ : Nat) (s : List Char), s.length ≤ fuel₁ → s.length ≤ fuel₂ →
      scanAux fuel₁ s = scanAux fuel₂ s := by
  intro fuel₁
  induction fuel₁ using Nat.strong_induction_on with
  | _ fuel₁ ih =>
    intro fuel₂ s h1 h2
    match fuel₁, fuel₂ with
    | 0, 0 => rfl
    | 0, f + 1 =>
      have : s = [] := List.length_eq_zero.mp (Nat.le_zero.mp h1)
      subst this
      simp [scanAux, stepScan, splitAtChar]
    | f + 1, 0 =>
      have : s = [] := List.length_eq_zero.mp (Nat.le_zero.mp h2)
      subst this
      simp [scanAux, stepScan, splitAtChar]
    | f + 1, g + 1 =>
      cases h : stepScan s with
      | none => simp only [scanAux, h]
      | some p =>
        obtain ⟨n, rest⟩ := p
        have hlen := stepScan_length h
        simp only [scanAux, h]
        rw [ih f (by omega) g rest (by omega) (by omega)]

theorem scanChars_eq (s : List Char) :
    scanChars s = match stepScan s with
      | none => []
      | some (n, rest) => n :: scanChars rest := by
  unfold scanChars
  cases hs : s.length with
  | zero =>
    have : s = [] := List.length_eq_zero.mp hs
    subst this
    simp [scanAux, stepScan, splitAtChar]
  | succ f =>
    cases h : stepScan s with
    | none => simp only [scanAux, h]
    | some p =>
      obtain ⟨n, rest⟩ := p
      have hlen := stepScan_length h
      simp only [scanAux, h]
      rw [scanAux_congr f rest.length rest (by omega) (by omega)]

/-- `SubstringsFromString` from `TypeUtils.ts` (lines 364–373): the union of
the strings extracted between the `{` and `}` delimiters, as the list of
names in extraction order (the TypeScript union collapses duplicates; use
`List.toFinset` for the union view). -/
def SubstringsFromString (s : String) : List String :=
  (scanChars s.data).map (fun l => String.mk l)

/-- `IsRecursionLimitExceeded` from `TypeUtils.ts` (lines 40–43):
the accumulator length is compared with the limit `N`. -/
def IsRecursionLimitExceeded (accLen : Nat) (limit : Nat) : Bool :=
  accLen = limit

/-- `SubstringsFromObject` from `TypeUtils.ts` (lines 390–403), with the
depth accumulator replaced by the number of remaining levels
(`remaining = 5 - A.length`; the code instantiates the limit to `5` and
drops every key once `IsRecursionLimitExceeded<A, 5>` holds, both string
leaves and further object recursion). -/
def SubstringsFromObjectAux : Nat → List (String × TVal) → List String
  | 0, _ => []
  | _ + 1, [] => []
  | r + 1, (_, TVal.str s) :: rest =>
      SubstringsFromString s ++ SubstringsFromObjectAux (r + 1) rest
  | r + 1, (_, TVal.obj f) :: rest =>
      SubstringsFromObjectAux r f ++ SubstringsFromObjectAux (r + 1) rest
  | r + 1, (_, TVal.int _) :: rest => SubstringsFromObjectAux (r + 1) rest
  | r + 1, (_, TVal.bool _) :: rest => SubstringsFromObjectAux (r + 1) rest
termination_by r f => (r, sizeOf f)

/-- `SubstringsFromObject<T, "{", "}">` with the accumulator starting
empty: the search is bounded to object depth `5`. -/
def SubstringsFromObject (f : List (String × TVal)) : List String :=
  SubstringsFromObjectAux 5 f

/-- `ExtractTemplateVars` from `RestApiTypes.ts` (lines 241–242): the
variables of the request template itself. -/
def ExtractTemplateVars (fields : List (String × TVal)) : List String :=
  SubstringsFromObject fields

/-- `IsKeyPathValid` from `TypeUtils.ts` (lines 251–260).  A key path of
length one is valid when the key resolves to any value (every template
value is an object or a primitive); a longer path requires the first key
to resolve to a nested object and the remainder to be valid there.  A key
that is absent resolves to `unknown`, which is neither `AnyObject` nor
`Primitive`, so the path is invalid. -/
def IsKeyPathValid (t : List (String × TVal)) : List String → Bool
  | [] => false
  | k :: rest =>
    match lookupKey t k, rest with
    | none, _ => false
    | some _, [] => true
    | some (TVal.obj f), _ :: _ => IsKeyPathValid f rest
    | some _, _ :: _ => false

/-- The value a key path resolves to inside a template, descending through
nested objects (`ValueAtKeyPath` semantics restricted to paths that stay
inside the structure). -/
def valueAt (t : List (String × TVal)) : List String → Option TVal
  | [] => none
  | k :: rest =>
    match lookupKey t k, rest with
    | none, _ => none
    | some v, [] => some v
    | some (TVal.obj f), _ :: _ => valueAt f rest
    | some _, _ :: _ => none

/-- All string leaves of a template object, each with the key path that
leads to it. -/
def stringLeaves : List (String × TVal) → List (List String × String)
  | [] => []
  | (k, TVal.str s) :: rest => ([k], s) :: stringLeaves rest
  | (k, TVal.obj f) :: rest =>
      (stringLeaves f).map (fun ps => (k :: ps.1, ps.2)) ++ stringLeaves rest
  | (_, TVal.int _) :: rest => stringLeaves rest
  | (_, TVal.bool _) :: rest => stringLeaves rest
termination_by f => sizeOf f

/-- `ExtractStringValuesFromGroupTemplate` from `RestApiTypes.ts`
(lines 213–229): the string leaves of a group template, except those whose
key path (accumulated in `acc`) is a valid key path of the request
template — those are overridden, so their placeholders are dead. -/
def ExtractStringValuesFromGroupTemplate
    (g : List (String × TVal)) (tmpl : List (String × TVal))
    (acc : List String) : List String :=
  match g with
  | [] => []
  | (k, TVal.str s) :: rest =>
      (if IsKeyPathValid tmpl (acc ++ [k]) then [] else [s]) ++
        ExtractStringValuesFromGroupTemplate rest tmpl acc
  | (k, TVal.obj f) :: rest =>
      ExtractStringValuesFromGroupTemplate f tmpl (acc ++ [k]) ++
        ExtractStringValuesFromGroupTemplate rest tmpl acc
  | (_, TVal.int _) :: rest => ExtractStringValuesFromGroupTemplate rest tmpl acc
  | (_, TVal.bool _) :: rest => ExtractStringValuesFromGroupTemplate rest tmpl acc
termination_by sizeOf g

/-- `ExtractGroupVars` from `RestApiTypes.ts` (lines 255–267):
`SubstringsFromString` applied to the union of string values the group
template contributes (application to a union distributes over its
members). -/
def ExtractGroupVars (g : List (String × TVal)) (tmpl : List (String × TVal)) :
    List String :=
  (ExtractStringValuesFromGroupTemplate g tmpl []).foldr
    (fun s acc => SubstringsFromString s ++ acc) []

/-- The reserved default group name (`REST_API_TEMPLATE_DEFAULT_GROUP`). -/
def REST_API_TEMPLATE_DEFAULT_GROUP : String := "DEFAULT"

/-- A RESTful API request template: the optional `GROUPS` key together
with the remaining configuration key-value pairs. -/
structure ReqTemplate where
  GROUPS : Option (List String)
  fields : List (String × TVal)

/-- `ExtractGroupNames` from `RestApiTypes.ts` (lines 179–185): the
declared `GROUPS` entries followed by `DEFAULT` when `GROUPS` is a string
array, and `[DEFAULT]` alone otherwise. -/
def ExtractGroupNames (t : ReqTemplate) : List String :=
  match t.GROUPS with
  | some gs => gs ++ [REST_API_TEMPLATE_DEFAULT_GROUP]
  | none => [REST_API_TEMPLATE_DEFAULT_GROUP]

/-- Modelled from the spec: the Request Composer's placeholder
substitution (§4.5 step 4, absent from `src/`, which only has the
compile-time types).  A left-to-right pass replaces each `{name}` whose
name has a value in `args` with that value; a placeholder with no
supplied value, and an open delimiter with no matching close delimiter,
are left untouched (permissive policy of §4.1). -/
def substAux (args : String → Option String) : Nat → List Char → List Char
  | 0, s => s
  | _ + 1, [] => []
  | fuel + 1, c :: rest =>
    if c = '{' then
      match splitAtChar '}' rest with
      | some (n, r) =>
        match args (String.mk n) with
        | some v => v.data ++ substAux args fuel r
        | none => '{' :: (n ++ '}' :: substAux args fuel r)
      | none => c :: rest
    else c :: substAux args fuel rest

/-- Placeholder substitution on a character list (the list's length is
always enough fuel). -/
def substChars (args : String → Option String) (s : List Char) : List Char :=
  substAux args s.length s

/-- Placeholder substitution on a string leaf. -/
def substString (args : String → Option String) (s : String) : String :=
  String.mk (substChars args s.data)

/-- Modelled from the spec: substitution applied to every string leaf of
a descriptor (§4.5 step 4), traversing nested objects. -/
def substFields (args : String → Option String) :
    List (String × TVal) → List (String × TVal)
  | [] => []
  | (k, TVal.str s) :: rest => (k, TVal.str (substString args s)) :: substFields args rest
  | (k, TVal.obj f) :: rest => (k, TVal.obj (substFields args f)) :: substFields args rest
  | (k, TVal.int n) :: rest => (k, TVal.int n) :: substFields args rest
  | (k, TVal.bool b) :: rest => (k, TVal.bool b) :: substFields args rest
termination_by f => sizeOf f

/-- A well-formedness check for a templated string: every `{` is closed
by a matching `}`, placeholder names contain no nested `{`, and no stray
`}` occurs outside a placeholder. -/
def wfAux : Nat → List Char → Bool
  | 0, s => s.isEmpty
  | _ + 1, [] => true
  | fuel + 1, c :: rest =>
    if c = '{' then
      match splitAtChar '}' rest with
      | some (n, r) => !(n.contains '{') && wfAux fuel r
      | none => false
    else if c = '}' then false
    else wfAux fuel rest

/-- Well-formedness of a templated character list. -/
def wfChars (s : List Char) : Bool := wfAux s.length s

/-- A character list free of both placeholder delimiters. -/
def braceFree (s : List Char) : Prop := '{' ∉ s ∧ '}' ∉ s

instance (s : List Char) : Decidable (braceFree s) := by
  unfold braceFree; infer_instance

/-- A string of interleaved literal segments and placeholders:
`l0 {n₁} l₁ {n₂} l₂ …` — the canonical shape of a well-formed templated
string. -/
def renderPieces : List (List Char × List Char) → List Char
  | [] => []
  | (n, l) :: ps => '{' :: (n ++ '}' :: (l ++ renderPieces ps))

/-- Modelled from the spec: the merge of the request template over one
group template (§4.5 step 3; only the compile-time types exist in `src/`).
`mergeOnto` rebuilds the template's own entries, descending into a nested
object when the group also has a nested object at that key and keeping
the template value otherwise (template wins at the leaf); group entries
whose key the template does not define are appended unchanged by
`mergeFields`. -/
def mergeOnto : List (String × TVal) → List (String × TVal) → List (String × TVal)
  | [], _ => []
  | (k, v) :: rest, gf =>
    (k, match v, lookupKey gf k with
        | TVal.obj tsub, some (TVal.obj gsub) =>
            TVal.obj (mergeOnto tsub gsub ++
              gsub.filter (fun kv => (lookupKey tsub kv.1).isNone))
        | _, _ => v) :: mergeOnto rest gf
termination_by tf _ => sizeOf tf

/-- Modelled from the spec: leaf-by-leaf merge with the template winning
on conflicting key paths and non-conflicting entries of both sides kept
(§4.5 step 3). -/
def mergeFields (tf gf : List (String × TVal)) : List (String × TVal) :=
  mergeOnto tf gf ++ gf.filter (fun kv => (lookupKey tf kv.1).isNone)

/-- The template does not obstruct the key path: no value at the path
itself and no scalar at a proper prefix, so a group value at this path
survives the merge unchanged. -/
def pathFree (tf : List (String × TVal)) : List String → Bool
  | [] => false
  | k :: rest =>
    match lookupKey tf k, rest with
    | none, _ => true
    | some _, [] => false
    | some (TVal.obj f), _ :: _ => pathFree f rest
    | some _, _ :: _ => false

/-- The error taxonomy of the engine surface (§7) that the claims
exercise. -/
inductive CError where
  | notFound (name : String)
  | missingArgument (names : Finset String)

/-- Modelled from the spec: `resolveGroupTemplates` (§4.3, absent from
`src/`).  Each resolved group name is mapped through the registry;
an unregistered name fails with `NotFoundError` naming it, except
`DEFAULT`, which is silently skipped when unregistered. -/
def resolveGroupsGo (reg : List (String × List (String × TVal))) :
    List String → Except CError (List (List (String × TVal)))
  | [] => Except.ok []
  | n :: rest =>
    match lookupKey reg n with
    | some g => (resolveGroupsGo reg rest).map (fun gs => g :: gs)
    | none =>
      if n = REST_API_TEMPLATE_DEFAULT_GROUP then resolveGroupsGo reg rest
      else Except.error (CError.notFound n)

/-- Modelled from the spec: the group templates applicable to a request
template, in resolution order (`ExtractGroupNames` then registry). -/
def resolveGroupTemplates (reg : List (String × List (String × TVal)))
    (t : ReqTemplate) : Except CError (List (List (String × TVal))) :=
  resolveGroupsGo reg (ExtractGroupNames t)

/-- Modelled from the spec: the Argument Schema (§4.4) — the template's
own variables (`ExtractTemplateVars`) united with each applicable group
template's non-overridden variables (`ExtractGroupVars`). -/
def buildSchemaOf (t : ReqTemplate) (gts : List (List (String × TVal))) :
    Finset String :=
  (ExtractTemplateVars t.fields).toFinset ∪
    gts.foldr (fun g acc => (ExtractGroupVars g t.fields).toFinset ∪ acc) ∅

/-- Modelled from the spec: the resolved group chain collapsed into one
object, earlier groups taking precedence over later ones (`DEFAULT` is
last). -/
def mergeGroupChain (gts : List (List (String × TVal))) : List (String × TVal) :=
  gts.foldr (fun g acc => mergeFields g acc) []

/-- Modelled from the spec: `composeRequest` (§4.5, absent from `src/`).
Look the command up, resolve its groups, verify every schema name is
supplied (failing with `MissingArgumentError` listing all missing names
before any substitution), then merge the template over its groups and
substitute the supplied arguments. -/
def composeRequest (templates : List (String × ReqTemplate))
    (reg : List (String × List (String × TVal)))
    (cmd : String) (args : List (String × String)) :
    Except CError (List (String × TVal)) :=
  match lookupKey templates cmd with
  | none => Except.error (CError.notFound cmd)
  | some t =>
    match resolveGroupTemplates reg t with
    | Except.error e => Except.error e
    | Except.ok gts =>
      let schema := buildSchemaOf t gts
      let missing := schema.filter (fun n => (lookupKey args n).isNone)
      if missing = ∅ then
        Except.ok (substFields (fun n => lookupKey args n)
          (mergeFields t.fields (mergeGroupChain gts)))
      else Except.error (CError.missingArgument missing)

/-- Modelled from the spec: the duplicate removal (keeping the first
occurrence) that §4.3 ascribes to `resolveGroupNames`; used to compare
the specified behaviour with `ExtractGroupNames`. -/
def dedupKeepFirst : List String → List String
  | [] => []
  | x :: xs => x :: dedupKeepFirst (xs.filter (fun y => y ≠ x))
termination_by l => l.length
decreasing_by
  simp only [List.length_cons]
  exact Nat.lt_succ_of_le (List.length_filter_le _ _)

/-- Erases every leaf that is neither a string nor a nested object
(booleans and numbers), at every depth. -/
def pruneScalars : List (String × TVal) → List (String × TVal)
  | [] => []
  | (k, TVal.str s) :: rest => (k, TVal.str s) :: pruneScalars rest
  | (k, TVal.obj f) :: rest => (k, TVal.obj (pruneScalars f)) :: pruneScalars rest
  | (_, TVal.int _) :: rest => pruneScalars rest
  | (_, TVal.bool _) :: rest => pruneScalars rest
termination_by f => sizeOf f

/-- An uppercase hexadecimal digit. -/
def hexDigit (n : Nat) : Char :=
  if n < 10 then Char.ofNat (48 + n) else Char.ofNat (55 + n)

/-- The UTF-8 encoding of a character, as byte values. -/
def utf8Bytes (c : Char) : List Nat :=
  let n := c.toNat
  if n < 0x80 then [n]
  else if n < 0x800 then [0xC0 + n / 0x40, 0x80 + n % 0x40]
  else if n < 0x10000 then
    [0xE0 + n / 0x1000, 0x80 + n / 0x40 % 0x40, 0x80 + n % 0x40]
  else
    [0xF0 + n / 0x40000, 0x80 + n / 0x1000 % 0x40,
      0x80 + n / 0x40 % 0x40, 0x80 + n % 0x40]

/-- Characters that `application/x-www-form-urlencoded` leaves as-is. -/
def isUrlUnreserved (c : Char) : Bool :=
  c.isAlphanum || c = '*' || c = '-' || c = '.' || c = '_'

/-- `application/x-www-form-urlencoded` encoding of one character:
space becomes `+`, unreserved characters stay, anything else is
percent-encoded byte by byte. -/
def encodeChar (c : Char) : List Char :=
  if c = ' ' then ['+']
  else if isUrlUnreserved c then [c]
  else (utf8Bytes c).foldr
    (fun b acc => '%' :: hexDigit (b / 16) :: hexDigit (b % 16) :: acc) []

/-- URL-encoding of a full string (the encoding `URLSearchParams`
applies to each key and value). -/
def urlencode (s : String) : String :=
  String.mk (s.data.foldr (fun c acc => encodeChar c ++ acc) [])

/-- The `URLSearchParams.toString` serialization: each appended pair is
URL-encoded and the pairs are joined with `&`. -/
def serializeQuery (ps : List (String × String)) : String :=
  String.intercalate "&" (ps.map (fun p => urlencode p.1 ++ "=" ++ urlencode p.2))

/-- `toQueryString` from `src/utils/UrlUtils.ts` (lines 25–31): the keys
are appended to a fresh `URLSearchParams` in iteration order and the
serialized query is prefixed with `"?"`. -/
def toQueryString (params : List (String × String)) : String :=
  "?" ++ serializeQuery (params.foldl (fun q kv => q ++ [kv]) [])

/-! ## Scanner lemmas -/

theorem scanChars_of_no_open {s : List Char} (h : '{' ∉ s) : scanChars s = [] := by
  rw [scanChars_eq]
  unfold stepScan
  rw [splitAtChar_of_not_mem h]

theorem scanChars_of_no_close {s : List Char} (h : '}' ∉ s) : scanChars s = [] := by
  rw [scanChars_eq]
  unfold stepScan
  cases h1 : splitAtChar '{' s with
  | none => rfl
  | some p =>
    obtain ⟨l, r⟩ := p
    obtain ⟨hs, _⟩ := splitAtChar_eq h1
    have hr : '}' ∉ r := by
      intro hq
      exact h (by rw [hs]; simp [hq])
    simp only [splitAtChar_of_not_mem hr]

theorem scanChars_malformed {pre post : List Char} (h1 : '{' ∉ pre)
    (h2 : '}' ∉ post) : scanChars (pre ++ '{' :: post) = [] := by
  rw [scanChars_eq]
  unfold stepScan
  simp only [splitAtChar_append_of_not_mem h1, splitAtChar_of_not_mem h2]

theorem scanChars_render :
    ∀ (ps : List (List Char × List Char)) (l0 : List Char),
      '{' ∉ l0 → '}' ∉ l0 →
      (∀ p ∈ ps, ('{' ∉ p.1 ∧ '}' ∉ p.1) ∧ ('{' ∉ p.2 ∧ '}' ∉ p.2)) →
      scanChars (l0 ++ renderPieces ps) = ps.map Prod.fst := by
  intro ps
  induction ps with
  | nil =>
    intro l0 h1 _ _
    simp [renderPieces]
    exact scanChars_of_no_open h1
  | cons p ps ih =>
    intro l0 h1 h2 hps
    obtain ⟨n, l⟩ := p
    obtain ⟨⟨hn1, hn2⟩, hl1, hl2⟩ := hps (n, l) (by simp)
    rw [scanChars_eq]
    unfold stepScan
    simp only [renderPieces]
    simp only [splitAtChar_append_of_not_mem h1]
    simp only [splitAtChar_append_of_not_mem hn2]
    simp only [List.map_cons]
    rw [show l0 ++ (l ++ renderPieces ps) = (l0 ++ l) ++ renderPieces ps by simp]
    rw [ih (l0 ++ l) (by simp [h1, hl1]) (by simp [h2, hl2])
      (fun q hq => hps q (by simp [hq]))]

/-! ## Substitution lemmas -/

theorem stepScan_cons {c : Char} (hc1 : c ≠ '{') (s : List Char) :
    stepScan (c :: s) = (stepScan s).map (fun p => (p.1, c :: p.2)) := by
  unfold stepScan
  cases h1 : splitAtChar '{' s with
  | none => simp [splitAtChar, hc1, h1]
  | some p =>
    obtain ⟨l, r⟩ := p
    simp only [splitAtChar, if_neg hc1, h1]
    cases h2 : splitAtChar '}' r with
    | none => simp
    | some q =>
      obtain ⟨n, r'⟩ := q
      simp

/-- A leading character that is not an open delimiter does not change the
set of names the scanner finds. -/
theorem scanChars_cons_of_ne :
    ∀ (len : Nat) (s : List Char), s.length ≤ len → ∀ c : Char,
      c ≠ '{' → scanChars (c :: s) = scanChars s := by
  intro len
  induction len using Nat.strong_induction_on with
  | _ len ih =>
    intro s hlen c hc1
    rw [scanChars_eq (c :: s), scanChars_eq s, stepScan_cons hc1]
    cases h : stepScan s with
    | none => rfl
    | some p =>
      obtain ⟨n, rest⟩ := p
      have hlt := stepScan_length h
      simp only [Option.map_some']
      congr 1
      exact ih rest.length (by omega) rest le_rfl c hc1

/-- The scanner on a string starting with a placeholder: the
placeholder's name first, then the names of the remainder. -/
theorem scanChars_open {n r : List Char} (rest : List Char)
    (hsp : splitAtChar '}' rest = some (n, r)) :
    scanChars ('{' :: rest) = n :: scanChars r := by
  rw [scanChars_eq]
  unfold stepScan
  simp [splitAtChar, hsp]

theorem substAux_braceFree (args : String → Option String)
    (hargs : ∀ n v, args n = some v → braceFree v.data) :
    ∀ (fuel : Nat) (s : List Char), s.length ≤ fuel → wfAux fuel s = true →
      (∀ n ∈ scanChars s, (args (String.mk n)).isSome) →
      braceFree (substAux args fuel s) := by
  intro fuel
  induction fuel with
  | zero =>
    intro s hlen _ _
    have : s = [] := List.length_eq_zero.mp (Nat.le_zero.mp hlen)
    subst this
    exact ⟨by simp [substAux], by simp [substAux]⟩
  | succ fuel ih =>
    intro s hlen hwf hcov
    cases s with
    | nil => exact ⟨by simp [substAux], by simp [substAux]⟩
    | cons c rest =>
      by_cases hc : c = '{'
      · subst hc
        simp only [wfAux, if_pos rfl] at hwf
        cases hsp : splitAtChar '}' rest with
        | none => rw [hsp] at hwf; simp at hwf
        | some p =>
          obtain ⟨n, r⟩ := p
          rw [hsp] at hwf
          simp at hwf
          obtain ⟨hrest, _⟩ := splitAtChar_eq hsp
          have hr : r.length ≤ fuel := by
            have := congrArg List.length hrest
            simp at this
            simp at hlen
            omega
          have hscan : scanChars ('{' :: rest) = n :: scanChars r :=
            scanChars_open rest hsp
          have hcov' : ∀ m ∈ scanChars r, (args (String.mk m)).isSome := by
            intro m hm
            exact hcov m (by rw [hscan]; exact List.mem_cons_of_mem n hm)
          cases hv : args (String.mk n) with
          | none =>
            have := hcov n (by rw [hscan]; exact List.mem_cons_self n _)
            rw [hv] at this
            simp at this
          | some v =>
            simp only [substAux, if_pos rfl, hsp, hv]
            have h1 := hargs _ _ hv
            have h2 := ih r hr hwf.2 hcov'
            exact ⟨by simp [h1.1, h2.1], by simp [h1.2, h2.2]⟩
      · by_cases hc2 : c = '}'
        · subst hc2
          simp [wfAux, hc] at hwf
        · simp only [wfAux, if_neg hc, if_neg hc2] at hwf
          have hr : rest.length ≤ fuel := by simp at hlen; omega
          have hcov' : ∀ m ∈ scanChars rest, (args (String.mk m)).isSome := by
            intro m hm
            exact hcov m (by rw [scanChars_cons_of_ne rest.length rest le_rfl c hc]; exact hm)
          have h2 := ih rest hr hwf hcov'
          simp only [substAux, if_neg hc]
          constructor
          · intro hmem
            rcases List.mem_cons.mp hmem with hq | hq
            · exact hc hq.symm
            · exact h2.1 hq
          · intro hmem
            rcases List.mem_cons.mp hmem with hq | hq
            · exact hc2 hq.symm
            · exact h2.2 hq

/-! ## Extraction lemmas -/

theorem stringLeaves_path_ne_nil :
    ∀ (f : List (String × TVal)) (p : List String) (s : String),
      (p, s) ∈ stringLeaves f → p ≠ [] := by
  intro f
  induction f using stringLeaves.induct with
  | case1 => intro p s h; simp [stringLeaves] at h
  | case2 k s' rest ih =>
    intro p s h
    simp only [stringLeaves, List.mem_cons] at h
    rcases h with h | h
    · simp at h; rcases h with ⟨h1, _⟩; rw [h1]; simp
    · exact ih p s h
  | case3 k f' rest ih1 ih2 =>
    intro p s h
    simp only [stringLeaves, List.mem_append, List.mem_map] at h
    rcases h with ⟨q, _, hq⟩ | h
    · have hq1 : k :: q.1 = p := congrArg Prod.fst hq
      rw [← hq1]
      simp
    · exact ih2 p s h
  | case4 _ _ rest ih => intro p s h; exact ih p s (by simpa [stringLeaves] using h)
  | case5 _ _ rest ih => intro p s h; exact ih p s (by simpa [stringLeaves] using h)

theorem SubstringsFromObjectAux_mem :
    ∀ (r : Nat) (f : List (String × TVal)) (v : String),
      v ∈ SubstringsFromObjectAux r f ↔
        ∃ p s, (p, s) ∈ stringLeaves f ∧ p.length ≤ r ∧
          v ∈ SubstringsFromString s := by
  intro r f
  induction r, f using SubstringsFromObjectAux.induct with
  | case1 f =>
    intro v
    simp only [SubstringsFromObjectAux]
    constructor
    · intro h; simp at h
    · rintro ⟨p, s, hmem, hlen, _⟩
      exact absurd (List.length_eq_zero.mp (Nat.le_zero.mp hlen))
        (stringLeaves_path_ne_nil f p s hmem)
  | case2 r =>
    intro v
    simp [SubstringsFromObjectAux, stringLeaves]
  | case3 r k s' rest ih =>
    intro v
    simp only [SubstringsFromObjectAux, stringLeaves, List.mem_append,
      List.mem_cons, ih]
    constructor
    · rintro (h | ⟨p, s, hmem, hlen, hv⟩)
      · exact ⟨[k], s', Or.inl rfl, by simp, h⟩
      · exact ⟨p, s, Or.inr hmem, hlen, hv⟩
    · rintro ⟨p, s, hmem | hmem, hlen, hv⟩
      · simp at hmem
        exact Or.inl (by rw [← hmem.2]; exact hv)
      · exact Or.inr ⟨p, s, hmem, hlen, hv⟩
  | case4 r k f' rest ih1 ih2 =>
    intro v
    simp only [SubstringsFromObjectAux, stringLeaves, List.mem_append,
      List.mem_map, ih1, ih2]
    constructor
    · rintro (⟨p, s, hmem, hlen, hv⟩ | ⟨p, s, hmem, hlen, hv⟩)
      · exact ⟨k :: p, s, Or.inl ⟨(p, s), hmem, rfl⟩, by simp; omega, hv⟩
      · exact ⟨p, s, Or.inr hmem, hlen, hv⟩
    · rintro ⟨p, s, ⟨⟨q, sq⟩, hmem, hq⟩ | hmem, hlen, hv⟩
      · have hq1 : k :: q = p := congrArg Prod.fst hq
        have hq2 : sq = s := congrArg Prod.snd hq
        subst hq1
        subst hq2
        simp only [List.length_cons] at hlen
        exact Or.inl ⟨q, sq, hmem, by omega, hv⟩
      · exact Or.inr ⟨p, s, hmem, hlen, hv⟩
  | case5 r _ _ rest ih =>
    intro v
    simpa [SubstringsFromObjectAux, stringLeaves] using ih v
  | case6 r _ _ rest ih =>
    intro v
    simpa [SubstringsFromObjectAux, stringLeaves] using ih v

theorem ExtractStringValuesFromGroupTemplate_eq :
    ∀ (g tmpl : List (String × TVal)) (acc : List String),
      ExtractStringValuesFromGroupTemplate g tmpl acc =
        (stringLeaves g).filterMap
          (fun ps => if IsKeyPathValid tmpl (acc ++ ps.1) then none else some ps.2) := by
  intro g
  induction g using stringLeaves.induct with
  | case1 => intro tmpl acc; simp [ExtractStringValuesFromGroupTemplate, stringLeaves]
  | case2 k s rest ih =>
    intro tmpl acc
    simp only [ExtractStringValuesFromGroupTemplate, stringLeaves,
      List.filterMap_cons, ih]
    by_cases h : IsKeyPathValid tmpl (acc ++ [k])
    · simp [h]
    · simp [h]
  | case3 k f rest ih1 ih2 =>
    intro tmpl acc
    simp only [ExtractStringValuesFromGroupTemplate, stringLeaves,
      List.filterMap_append, List.filterMap_map, ih1, ih2]
    congr 1
    apply List.filterMap_congr
    intro ps _
    simp only [Function.comp]
    rw [show acc ++ k :: ps.1 = (acc ++ [k]) ++ ps.1 by simp]
  | case4 _ _ rest ih =>
    intro tmpl acc
    simpa [ExtractStringValuesFromGroupTemplate, stringLeaves] using ih tmpl acc
  | case5 _ _ rest ih =>
    intro tmpl acc
    simpa [ExtractStringValuesFromGroupTemplate, stringLeaves] using ih tmpl acc

theorem IsKeyPathValid_eq_isSome_valueAt :
    ∀ (rest : List String) (tmpl : List (String × TVal)) (k : String),
      IsKeyPathValid tmpl (k :: rest) = (valueAt tmpl (k :: rest)).isSome := by
  intro rest
  induction rest with
  | nil =>
    intro tmpl k
    simp only [IsKeyPathValid, valueAt]
    cases lookupKey tmpl k with
    | none => rfl
    | some v => cases v <;> rfl
  | cons k2 rest2 ih =>
    intro tmpl k
    simp only [IsKeyPathValid, valueAt]
    cases h : lookupKey tmpl k with
    | none => rfl
    | some v =>
      cases v with
      | str s => rfl
      | int n => rfl
      | bool b => rfl
      | obj f => exact ih f k2


theorem lookupKey_append {α : Type} :
    ∀ (l1 l2 : List (String × α)) (q : String),
      lookupKey (l1 ++ l2) q = (lookupKey l1 q).or (lookupKey l2 q) := by
  intro l1 l2 q
  induction l1 with
  | nil => simp [lookupKey]
  | cons kv rest ih =>
    obtain ⟨k, v⟩ := kv
    by_cases h : k = q
    · simp [lookupKey, h]
    · simp [lookupKey, h, ih]

theorem lookupKey_filter_key {α : Type} (p : String → Bool) :
    ∀ (l : List (String × α)) (q : String),
      lookupKey (l.filter (fun kv => p kv.1)) q =
        if p q then lookupKey l q else none := by
  intro l q
  induction l with
  | nil => simp [lookupKey]
  | cons kv rest ih =>
    obtain ⟨k, v⟩ := kv
    by_cases hk : k = q
    · subst hk
      by_cases hp : p k
      · simp [List.filter, lookupKey, hp]
      · simp [List.filter, lookupKey, hp, ih]
    · by_cases hp : p k
      · simp [List.filter, lookupKey, hp, hk, ih]
      · simp [List.filter, lookupKey, hp, hk, ih]

/-- How one key resolves after `mergeOnto`: every template key survives,
its value merged with the group's value at the same key when both are
nested objects and kept as-is otherwise. -/
theorem lookupKey_mergeOnto :
    ∀ (tf gf : List (String × TVal)) (q : String),
      lookupKey (mergeOnto tf gf) q = (lookupKey tf q).map
        (fun v => match v, lookupKey gf q with
          | TVal.obj tsub, some (TVal.obj gsub) => TVal.obj (mergeFields tsub gsub)
          | _, _ => v) := by
  intro tf gf q
  induction tf with
  | nil =>
    rw [mergeOnto.eq_def]
    simp [lookupKey]
  | cons kv rest ih =>
    obtain ⟨k, v⟩ := kv
    rw [mergeOnto.eq_def]
    show lookupKey ((k, match v, lookupKey gf k with
        | TVal.obj tsub, some (TVal.obj gsub) =>
            TVal.obj (mergeOnto tsub gsub ++
              gsub.filter (fun kv => (lookupKey tsub kv.1).isNone))
        | _, _ => v) :: mergeOnto rest gf) q = _
    by_cases h : k = q
    · subst h
      simp only [lookupKey, if_pos rfl, Option.map_some']
      rfl
    · simp only [lookupKey, if_neg h]
      exact ih

/-- How one key resolves after the full merge: the template's entry wins
(merging nested objects), and keys the template does not define fall
through to the group. -/
theorem lookupKey_mergeFields (tf gf : List (String × TVal)) (q : String) :
    lookupKey (mergeFields tf gf) q =
      match lookupKey tf q with
      | none => lookupKey gf q
      | some v => some (match v, lookupKey gf q with
          | TVal.obj tsub, some (TVal.obj gsub) => TVal.obj (mergeFields tsub gsub)
          | _, _ => v) := by
  have h1 : lookupKey (mergeFields tf gf) q =
      (lookupKey (mergeOnto tf gf) q).or
        (lookupKey (gf.filter (fun kv => (lookupKey tf kv.1).isNone)) q) := by
    unfold mergeFields
    exact lookupKey_append _ _ _
  rw [h1, lookupKey_mergeOnto,
    lookupKey_filter_key (fun x => (lookupKey tf x).isNone)]
  cases h : lookupKey tf q with
  | none => simp
  | some v => simp [Option.or]

/-- A leaf (non-object) value defined on the template survives the merge
unchanged at its key path, whatever the group defines there. -/
theorem valueAt_mergeFields_template_leaf :
    ∀ (p : List String) (tf gf : List (String × TVal)) (v : TVal),
      valueAt tf p = some v → (∀ f, v ≠ TVal.obj f) →
      valueAt (mergeFields tf gf) p = some v := by
  intro p
  induction p with
  | nil => intro tf gf v h _; simp [valueAt] at h
  | cons k rest ih =>
    intro tf gf v h hleaf
    simp only [valueAt] at h ⊢
    rw [lookupKey_mergeFields]
    cases h1 : lookupKey tf k with
    | none => rw [h1] at h; simp at h
    | some w =>
      rw [h1] at h
      cases rest with
      | nil =>
        simp at h
        subst h
        cases hw : w with
        | obj f => exact absurd hw (hleaf f)
        | str s => simp
        | int n => simp
        | bool b => simp
      | cons k2 rest2 =>
        cases w with
        | str s => simp at h
        | int n => simp at h
        | bool b => simp at h
        | obj f =>
          simp only at h
          cases h2 : lookupKey gf k with
          | none => simpa using h
          | some g =>
            cases g with
            | obj gsub => simpa using ih f gsub v h hleaf
            | str s => simpa using h
            | int n => simpa using h
            | bool b => simpa using h

/-- A free path resolves to nothing on the template itself. -/
theorem pathFree_valueAt :
    ∀ (p : List String) (tf : List (String × TVal)),
      pathFree tf p = true → valueAt tf p = none := by
  intro p
  induction p with
  | nil => intro tf h; simp [pathFree] at h
  | cons k rest ih =>
    intro tf h
    simp only [pathFree] at h
    simp only [valueAt]
    cases h1 : lookupKey tf k with
    | none => rfl
    | some v =>
      rw [h1] at h
      cases rest with
      | nil => simp at h
      | cons k2 rest2 =>
        cases v with
        | str s => simp at h
        | int n => simp at h
        | bool b => simp at h
        | obj f => exact ih f h

/-- When the template leaves a key path free, the merged descriptor
resolves it exactly as the group does. -/
theorem valueAt_mergeFields_group :
    ∀ (p : List String) (tf gf : List (String × TVal)),
      pathFree tf p = true →
      valueAt (mergeFields tf gf) p = valueAt gf p := by
  intro p
  induction p with
  | nil => intro tf gf _; simp [valueAt]
  | cons k rest ih =>
    intro tf gf h
    simp only [pathFree] at h
    simp only [valueAt]
    rw [lookupKey_mergeFields]
    cases h1 : lookupKey tf k with
    | none => rfl
    | some v =>
      rw [h1] at h
      cases rest with
      | nil => simp at h
      | cons k2 rest2 =>
        cases v with
        | str s => simp at h
        | int n => simp at h
        | bool b => simp at h
        | obj f =>
          simp only at h
          cases h2 : lookupKey gf k with
          | none =>
            simp only
            exact pathFree_valueAt _ f h
          | some g =>
            cases g with
            | obj gsub => simpa using ih f gsub h
            | str s =>
              simp only
              exact pathFree_valueAt _ f h
            | int n =>
              simp only
              exact pathFree_valueAt _ f h
            | bool b =>
              simp only
              exact pathFree_valueAt _ f h

/-! ## Substitution over objects, group resolution, composition -/

theorem stringLeaves_substFields :
    ∀ (args : String → Option String) (f : List (String × TVal)),
      stringLeaves (substFields args f) =
        (stringLeaves f).map (fun ps => (ps.1, substString args ps.2)) := by
  intro args f
  induction f using stringLeaves.induct with
  | case1 => simp [substFields, stringLeaves]
  | case2 k s rest ih => simp [substFields, stringLeaves, ih]
  | case3 k f' rest ih1 ih2 =>
    simp [substFields, stringLeaves, ih1, ih2]
  | case4 k n rest ih => simp [substFields, stringLeaves, ih]
  | case5 k b rest ih => simp [substFields, stringLeaves, ih]

theorem resolveGroupsGo_error_iff
    (reg : List (String × List (String × TVal))) :
    ∀ (names : List String),
      (∃ e, resolveGroupsGo reg names = Except.error e) ↔
        ∃ n ∈ names, n ≠ REST_API_TEMPLATE_DEFAULT_GROUP ∧
          lookupKey reg n = none := by
  intro names
  induction names with
  | nil => simp [resolveGroupsGo]
  | cons n rest ih =>
    cases h : lookupKey reg n with
    | some g =>
      simp only [resolveGroupsGo, h]
      constructor
      · rintro ⟨e, he⟩
        cases hr : resolveGroupsGo reg rest with
        | error e' =>
          obtain ⟨m, hm, hmd, hml⟩ := ih.mp ⟨e', hr⟩
          exact ⟨m, by simp [hm], hmd, hml⟩
        | ok gts => rw [hr] at he; simp [Except.map] at he
      · rintro ⟨m, hm, hmd, hml⟩
        rcases List.mem_cons.mp hm with rfl | hm2
        · rw [h] at hml; simp at hml
        · obtain ⟨e, he⟩ := ih.mpr ⟨m, hm2, hmd, hml⟩
          exact ⟨e, by rw [he]; rfl⟩
    | none =>
      by_cases hd : n = REST_API_TEMPLATE_DEFAULT_GROUP
      · simp only [resolveGroupsGo, h, if_pos hd]
        constructor
        · intro he
          obtain ⟨m, hm, hmd, hml⟩ := ih.mp he
          exact ⟨m, by simp [hm], hmd, hml⟩
        · rintro ⟨m, hm, hmd, hml⟩
          rcases List.mem_cons.mp hm with rfl | hm2
          · exact absurd hd hmd
          · exact ih.mpr ⟨m, hm2, hmd, hml⟩
      · simp only [resolveGroupsGo, h, if_neg hd]
        constructor
        · intro _
          exact ⟨n, by simp, hd, h⟩
        · intro _
          exact ⟨CError.notFound n, rfl⟩

theorem resolveGroupsGo_error_elim
    (reg : List (String × List (String × TVal))) :
    ∀ (names : List String) (e : CError),
      resolveGroupsGo reg names = Except.error e →
      ∃ n, e = CError.notFound n ∧ n ∈ names ∧
        n ≠ REST_API_TEMPLATE_DEFAULT_GROUP ∧ lookupKey reg n = none := by
  intro names
  induction names with
  | nil => intro e h; simp [resolveGroupsGo] at h
  | cons n rest ih =>
    intro e h
    cases h1 : lookupKey reg n with
    | some g =>
      simp only [resolveGroupsGo, h1] at h
      cases hr : resolveGroupsGo reg rest with
      | error e' =>
        rw [hr] at h
        simp [Except.map] at h
        subst h
        obtain ⟨m, hm1, hm2, hm3, hm4⟩ := ih e' hr
        exact ⟨m, hm1, by simp [hm2], hm3, hm4⟩
      | ok gts => rw [hr] at h; simp [Except.map] at h
    | none =>
      by_cases hd : n = REST_API_TEMPLATE_DEFAULT_GROUP
      · simp only [resolveGroupsGo, h1, if_pos hd] at h
        obtain ⟨m, hm1, hm2, hm3, hm4⟩ := ih e h
        exact ⟨m, hm1, by simp [hm2], hm3, hm4⟩
      · simp only [resolveGroupsGo, h1, if_neg hd] at h
        refine ⟨n, ?_, by simp, hd, h1⟩
        cases h
        rfl

theorem composeRequest_eq_of
    {templates : List (String × ReqTemplate)}
    {reg : List (String × List (String × TVal))}
    {cmd : String} {args : List (String × String)}
    {t : ReqTemplate} {gts : List (List (String × TVal))}
    (ht : lookupKey templates cmd = some t)
    (hg : resolveGroupTemplates reg t = Except.ok gts) :
    composeRequest templates reg cmd args =
      (if (buildSchemaOf t gts).filter (fun n => (lookupKey args n).isNone) = ∅
        then Except.ok (substFields (fun n => lookupKey args n)
          (mergeFields t.fields (mergeGroupChain gts)))
        else Except.error (CError.missingArgument
          ((buildSchemaOf t gts).filter (fun n => (lookupKey args n).isNone)))) := by
  unfold composeRequest
  rw [ht]
  simp only
  rw [hg]

theorem composeRequest_error_of_resolve
    {templates : List (String × ReqTemplate)}
    {reg : List (String × List (String × TVal))}
    {cmd : String} {args : List (String × String)}
    {t : ReqTemplate} {e : CError}
    (ht : lookupKey templates cmd = some t)
    (hg : resolveGroupTemplates reg t = Except.error e) :
    composeRequest templates reg cmd args = Except.error e := by
  unfold composeRequest
  rw [ht]
  simp only
  rw [hg]

/-- `ExtractGroupNames` in closed form: declared groups then `DEFAULT`. -/
theorem ExtractGroupNames_eq (t : ReqTemplate) :
    ExtractGroupNames t =
      t.GROUPS.getD [] ++ [REST_API_TEMPLATE_DEFAULT_GROUP] := by
  cases t with
  | mk gs fields =>
    cases gs with
    | none => rfl
    | some l => rfl

theorem foldl_append_singleton {α : Type} :
    ∀ (l acc : List α), l.foldl (fun q kv => q ++ [kv]) acc = acc ++ l := by
  intro l
  induction l with
  | nil => intro acc; simp
  | cons x xs ih => intro acc; simp [List.foldl_cons, ih]

/-- A well-formed prefix followed by an unterminated open delimiter:
the scanner still finds every well-formed placeholder and the malformed
tail contributes nothing. -/
theorem scanChars_render_open :
    ∀ (ps : List (List Char × List Char)) (l0 post : List Char),
      '{' ∉ l0 → '}' ∉ l0 → '}' ∉ post →
      (∀ p ∈ ps, ('{' ∉ p.1 ∧ '}' ∉ p.1) ∧ ('{' ∉ p.2 ∧ '}' ∉ p.2)) →
      scanChars (l0 ++ renderPieces ps ++ '{' :: post) = ps.map Prod.fst := by
  intro ps
  induction ps with
  | nil =>
    intro l0 post h1 h2 h3 _
    simp only [renderPieces, List.append_nil, List.map_nil]
    exact scanChars_malformed h1 h3
  | cons p ps ih =>
    intro l0 post h1 h2 h3 hps
    obtain ⟨n, l⟩ := p
    obtain ⟨⟨hn1, hn2⟩, hl1, hl2⟩ := hps (n, l) (by simp)
    rw [scanChars_eq]
    unfold stepScan
    simp only [renderPieces, List.cons_append, List.append_assoc]
    simp only [splitAtChar_append_of_not_mem h1]
    simp only [splitAtChar_append_of_not_mem hn2]
    simp only [List.map_cons]
    rw [show l0 ++ (l ++ (renderPieces ps ++ '{' :: post)) =
      (l0 ++ l) ++ renderPieces ps ++ '{' :: post by simp]
    rw [ih (l0 ++ l) post (by simp [h1, hl1]) (by simp [h2, hl2]) h3
      (fun q hq => hps q (by simp [hq]))]

/-! ## Claim theorems -/

/-- C1: For every applicable group template, a variable string found in one
of the group's string leaves is excluded from the extraction (and hence
from the command's argument schema) exactly when that leaf's key path
resolves, within the command's request template, to some value — a
terminal scalar or a nested object (`IsKeyPathValid` is exactly
`(valueAt …).isSome` on the nonempty key paths that lead to leaves); a key
path that falls off the edge of the template's own structure resolves to
nothing, so the group's string at that key path is kept. -/
theorem groupVar_excluded_iff_keyPath_resolves :
    (∀ (g tmpl : List (String × TVal)),
      ExtractStringValuesFromGroupTemplate g tmpl [] =
        (stringLeaves g).filterMap
          (fun ps => if (valueAt tmpl ps.1).isSome then none else some ps.2)) ∧
    (∀ (tmpl : List (String × TVal)) (k : String) (rest : List String),
      IsKeyPathValid tmpl (k :: rest) = (valueAt tmpl (k :: rest)).isSome) := by
  constructor
  · intro g tmpl
    rw [ExtractStringValuesFromGroupTemplate_eq]
    apply List.filterMap_congr
    intro ps hmem
    have hne : ps.1 ≠ [] := stringLeaves_path_ne_nil g ps.1 ps.2 hmem
    obtain ⟨k, rest, hk⟩ : ∃ k rest, ps.1 = k :: rest := by
      cases hp : ps.1 with
      | nil => exact absurd hp hne
      | cons a b => exact ⟨a, b, rfl⟩
    rw [List.nil_append, hk, IsKeyPathValid_eq_isSome_valueAt]
  · intro tmpl k rest
    exact IsKeyPathValid_eq_isSome_valueAt rest tmpl k

/-- C3: Placeholder search through nested structures is bounded to object
depth 5: a variable appears in `SubstringsFromObject` exactly when it is
found in a string leaf whose key path is at most 5 keys long (the
template root counted as the first object level), so a template nested 6
objects deep with a placeholder at the deepest level yields no
variable. -/
theorem substringsFromObject_depth_limited :
    (∀ (f : List (String × TVal)) (v : String),
      v ∈ SubstringsFromObject f ↔
        ∃ p s, (p, s) ∈ stringLeaves f ∧ p.length ≤ 5 ∧
          v ∈ SubstringsFromString s) ∧
    SubstringsFromObject
      [("k1", TVal.obj [("k2", TVal.obj [("k3", TVal.obj [("k4",
        TVal.obj [("k5", TVal.obj [("k6", TVal.str "{deep}")])])])])])] = [] ∧
    SubstringsFromObject
      [("k1", TVal.obj [("k2", TVal.obj [("k3", TVal.obj [("k4",
        TVal.obj [("k5", TVal.str "{deep}")])])])])] = ["deep"] := by
  refine ⟨fun f v => SubstringsFromObjectAux_mem 5 f v, ?_, ?_⟩
  · simp [SubstringsFromObject, SubstringsFromObjectAux]
  · have hs : SubstringsFromString "{deep}" = ["deep"] := by decide
    simp [SubstringsFromObject, SubstringsFromObjectAux, hs]

/-- C4: The placeholder scanner is a permissive scan: a string with no
open delimiter, no close delimiter, or an open delimiter never followed
by a close delimiter yields the empty result rather than an error;
a well-formed interleaving of literal segments and placeholders yields
exactly its placeholder names (so multiple placeholders in one string are
all found); and as a set (the TypeScript union) repeated occurrences of
one name appear once. -/
theorem substringsFromString_permissive_scan :
    (∀ s : String, '{' ∉ s.data → SubstringsFromString s = []) ∧
    (∀ s : String, '}' ∉ s.data → SubstringsFromString s = []) ∧
    (∀ pre post : List Char, '{' ∉ pre → '}' ∉ post →
      SubstringsFromString (String.mk (pre ++ '{' :: post)) = []) ∧
    (∀ (ps : List (List Char × List Char)) (l0 : List Char),
      '{' ∉ l0 → '}' ∉ l0 →
      (∀ p ∈ ps, ('{' ∉ p.1 ∧ '}' ∉ p.1) ∧ ('{' ∉ p.2 ∧ '}' ∉ p.2)) →
      scanChars (l0 ++ renderPieces ps) = ps.map Prod.fst) ∧
    (∀ (ps : List (List Char × List Char)) (l0 post : List Char),
      '{' ∉ l0 → '}' ∉ l0 → '}' ∉ post →
      (∀ p ∈ ps, ('{' ∉ p.1 ∧ '}' ∉ p.1) ∧ ('{' ∉ p.2 ∧ '}' ∉ p.2)) →
      scanChars (l0 ++ renderPieces ps ++ '{' :: post) = ps.map Prod.fst) ∧
    (SubstringsFromString "a{x}b{x}c{y}").toFinset = {"x", "y"} := by
  refine ⟨?_, ?_, ?_, scanChars_render, scanChars_render_open, by decide⟩
  · intro s h
    simp [SubstringsFromString, scanChars_of_no_open h]
  · intro s h
    simp [SubstringsFromString, scanChars_of_no_close h]
  · intro pre post h1 h2
    simp [SubstringsFromString, scanChars_malformed h1 h2]

/-- C4 witness: the permissive-scan theorem applied to the concrete
strings `"plain"` (no placeholder) and `"a{b"` (unterminated
placeholder). -/
theorem substringsFromString_permissive_scan_witness :
    SubstringsFromString "plain" = [] ∧
    SubstringsFromString (String.mk (['a'] ++ '{' :: ['b'])) = [] :=
  ⟨substringsFromString_permissive_scan.1 "plain" (by decide),
    substringsFromString_permissive_scan.2.2.1 ['a'] ['b'] (by decide) (by decide)⟩

/-- C9: Leaves that are neither strings nor nested objects (booleans,
numbers) contribute no variables at any nesting depth: erasing them
changes neither the template-variable extraction (at any depth budget)
nor the group-template string extraction, and both functions are total on
every template. -/
theorem scalar_leaves_contribute_no_vars :
    (∀ (r : Nat) (f : List (String × TVal)),
      SubstringsFromObjectAux r (pruneScalars f) = SubstringsFromObjectAux r f) ∧
    (∀ (g tmpl : List (String × TVal)) (acc : List String),
      ExtractStringValuesFromGroupTemplate (pruneScalars g) tmpl acc =
        ExtractStringValuesFromGroupTemplate g tmpl acc) := by
  constructor
  · intro r f
    induction r, f using SubstringsFromObjectAux.induct with
    | case1 f => simp [SubstringsFromObjectAux]
    | case2 r => simp [pruneScalars]
    | case3 r k s rest ih =>
      simp only [pruneScalars, SubstringsFromObjectAux, ih]
    | case4 r k f' rest ih1 ih2 =>
      simp only [pruneScalars, SubstringsFromObjectAux, ih1, ih2]
    | case5 r k n rest ih =>
      simp only [pruneScalars, SubstringsFromObjectAux, ih]
    | case6 r k b rest ih =>
      simp only [pruneScalars, SubstringsFromObjectAux, ih]
  · intro g tmpl acc
    induction g using stringLeaves.induct generalizing acc with
    | case1 => simp [pruneScalars]
    | case2 k s rest ih =>
      simp only [pruneScalars, ExtractStringValuesFromGroupTemplate, ih]
    | case3 k f' rest ih1 ih2 =>
      simp only [pruneScalars, ExtractStringValuesFromGroupTemplate, ih1, ih2]
    | case4 k n rest ih =>
      simp only [pruneScalars, ExtractStringValuesFromGroupTemplate, ih]
    | case5 k b rest ih =>
      simp only [pruneScalars, ExtractStringValuesFromGroupTemplate, ih]

/-- C2 counterexample: on a template that lists `DEFAULT` explicitly,
`ExtractGroupNames` returns `["DEFAULT", "DEFAULT"]` — the declared
entries followed by `DEFAULT` *without* removing duplicates, so the
returned sequence is not the duplicate-free list the claim states. -/
theorem extractGroupNames_keeps_duplicates :
    ExtractGroupNames ⟨some ["DEFAULT"], []⟩ = ["DEFAULT", "DEFAULT"] ∧
    ExtractGroupNames ⟨some ["DEFAULT"], []⟩ ≠
      dedupKeepFirst (["DEFAULT"] ++ [REST_API_TEMPLATE_DEFAULT_GROUP]) ∧
    ¬ (ExtractGroupNames ⟨some ["DEFAULT"], []⟩).Nodup := by
  have hd : dedupKeepFirst (["DEFAULT"] ++ [REST_API_TEMPLATE_DEFAULT_GROUP]) =
      ["DEFAULT"] := by
    simp [dedupKeepFirst, REST_API_TEMPLATE_DEFAULT_GROUP]
  refine ⟨rfl, ?_, by decide⟩
  rw [hd]
  decide

/-- C2 amended: `ExtractGroupNames` returns the declared `GROUPS` entries
in declaration order followed by `DEFAULT`, without removing duplicates;
as a set of names (the `ArrayToUnion` view in which the result is
consumed) it is exactly the declared groups plus `DEFAULT`, so `DEFAULT`
is applied also when `GROUPS` is empty or absent, and the sequence
contains exactly one more `DEFAULT` entry than the vendor declared. -/
theorem extractGroupNames_declared_then_default :
    (∀ t : ReqTemplate, ExtractGroupNames t =
      t.GROUPS.getD [] ++ [REST_API_TEMPLATE_DEFAULT_GROUP]) ∧
    (∀ t : ReqTemplate, REST_API_TEMPLATE_DEFAULT_GROUP ∈ ExtractGroupNames t) ∧
    (∀ (t : ReqTemplate) (n : String), n ∈ ExtractGroupNames t ↔
      n ∈ t.GROUPS.getD [] ∨ n = REST_API_TEMPLATE_DEFAULT_GROUP) ∧
    (∀ t : ReqTemplate,
      (ExtractGroupNames t).count REST_API_TEMPLATE_DEFAULT_GROUP =
        (t.GROUPS.getD []).count REST_API_TEMPLATE_DEFAULT_GROUP + 1) := by
  refine ⟨ExtractGroupNames_eq, ?_, ?_, ?_⟩
  · intro t; rw [ExtractGroupNames_eq]; simp
  · intro t n; rw [ExtractGroupNames_eq]; simp
  · intro t; rw [ExtractGroupNames_eq]; simp

/-- C10: `toQueryString` always returns a string that begins with `'?'`,
returns exactly `"?"` for the empty object, and otherwise appends the
URL-encoded `key=value` pairs joined by `'&'` in iteration order; on the
repository's own test input it produces
`"?a=3&b=true&c=Test+String"`. -/
theorem toQueryString_spec :
    (∀ ps : List (String × String), (toQueryString ps).data.head? = some '?') ∧
    toQueryString [] = "?" ∧
    (∀ ps : List (String × String),
      toQueryString ps = "?" ++ String.intercalate "&"
        (ps.map (fun p => urlencode p.1 ++ "=" ++ urlencode p.2))) ∧
    toQueryString [("a", "3"), ("b", "true"), ("c", "Test String")] =
      "?a=3&b=true&c=Test+String" := by
  have hfold : ∀ ps : List (String × String),
      toQueryString ps = "?" ++ serializeQuery ps := by
    intro ps
    unfold toQueryString
    rw [foldl_append_singleton, List.nil_append]
  refine ⟨?_, by decide, ?_, by decide⟩
  · intro ps
    rw [hfold]
    simp [String.data_append]
  · intro ps
    rw [hfold]
    rfl

/-- C5 counterexample: with the request template `{a: "x"}` and the group
template `{a: {b: "y"}}`, the key path `["a","b"]` is defined only on the
group, yet the merged descriptor (the template's scalar wins at `"a"`)
does not contain it — so "every key-path defined on only one of them
appears unchanged" fails as stated. -/
theorem merge_drops_group_leaf_under_template_leaf :
    valueAt [("a", TVal.obj [("b", TVal.str "y")])] ["a", "b"] =
      some (TVal.str "y") ∧
    valueAt [("a", TVal.str "x")] ["a", "b"] = none ∧
    mergeFields [("a", TVal.str "x")] [("a", TVal.obj [("b", TVal.str "y")])] =
      [("a", TVal.str "x")] ∧
    valueAt (mergeFields [("a", TVal.str "x")]
      [("a", TVal.obj [("b", TVal.str "y")])]) ["a", "b"] = none := by
  refine ⟨by simp [valueAt, lookupKey], by simp [valueAt, lookupKey], ?_, ?_⟩
  · simp [mergeFields, mergeOnto.eq_def, lookupKey]
  · simp [mergeFields, mergeOnto.eq_def, lookupKey, valueAt]

/-- C5 amended: the merge is leaf-by-leaf with the template winning: every
key path that resolves on the request template to a leaf (non-object)
value keeps exactly the template's value in the merged descriptor,
whether or not the group defines that path; and a key path that the
template leaves entirely free (no value at the path and no scalar at a
proper prefix) resolves in the merged descriptor exactly as in the group
template — a group key path obstructed by a template leaf at a proper
prefix is dropped rather than kept. -/
theorem merge_template_wins_leafwise :
    (∀ (p : List String) (tf gf : List (String × TVal)) (v : TVal),
      valueAt tf p = some v → (∀ f, v ≠ TVal.obj f) →
      valueAt (mergeFields tf gf) p = some v) ∧
    (∀ (p : List String) (tf gf : List (String × TVal)),
      pathFree tf p = true →
      valueAt (mergeFields tf gf) p = valueAt gf p) :=
  ⟨valueAt_mergeFields_template_leaf, valueAt_mergeFields_group⟩

/-- C5 witness: the merge theorem applied to the specification's concrete
scenario B — the template overrides `HEADERS.X-Key`, so the merged value
is the template's `"fixed"`; the group-only leaf `NOTE` survives
unchanged. -/
theorem merge_template_wins_leafwise_witness :
    valueAt (mergeFields
      [("URI", TVal.str "status"), ("HEADERS", TVal.obj [("X-Key", TVal.str "fixed")])]
      [("HEADERS", TVal.obj [("X-Key", TVal.str "{apiKey}")]), ("NOTE", TVal.str "{noteId}")])
      ["HEADERS", "X-Key"] = some (TVal.str "fixed") ∧
    valueAt (mergeFields
      [("URI", TVal.str "status"), ("HEADERS", TVal.obj [("X-Key", TVal.str "fixed")])]
      [("HEADERS", TVal.obj [("X-Key", TVal.str "{apiKey}")]), ("NOTE", TVal.str "{noteId}")])
      ["NOTE"] = some (TVal.str "{noteId}") := by
  constructor
  · exact merge_template_wins_leafwise.1 ["HEADERS", "X-Key"] _ _ (TVal.str "fixed")
      (by simp [valueAt, lookupKey]) (by intro f; simp)
  · rw [merge_template_wins_leafwise.2 ["NOTE"] _ _ (by simp [pathFree, lookupKey])]
    simp [valueAt, lookupKey]

/-- C6: `resolveGroupTemplates` fails exactly when some declared group
name other than `DEFAULT` is unregistered, the error is a `NotFoundError`
naming such a group, and `composeRequest` propagates the failure;
`DEFAULT` is exempt — when every non-`DEFAULT` declared name is
registered the resolution succeeds even with no `DEFAULT` group
registered. -/
theorem resolveGroupTemplates_notFound_iff :
    (∀ (reg : List (String × List (String × TVal))) (t : ReqTemplate),
      (∃ e, resolveGroupTemplates reg t = Except.error e) ↔
        ∃ n ∈ t.GROUPS.getD [], n ≠ REST_API_TEMPLATE_DEFAULT_GROUP ∧
          lookupKey reg n = none) ∧
    (∀ (reg : List (String × List (String × TVal))) (t : ReqTemplate) (e : CError),
      resolveGroupTemplates reg t = Except.error e →
      ∃ n, e = CError.notFound n ∧ n ∈ t.GROUPS.getD [] ∧
        n ≠ REST_API_TEMPLATE_DEFAULT_GROUP ∧ lookupKey reg n = none) ∧
    (∀ (templates : List (String × ReqTemplate))
        (reg : List (String × List (String × TVal)))
        (cmd : String) (args : List (String × String)) (t : ReqTemplate) (e : CError),
      lookupKey templates cmd = some t →
      resolveGroupTemplates reg t = Except.error e →
      composeRequest templates reg cmd args = Except.error e) := by
  have hmem : ∀ (t : ReqTemplate) (n : String),
      (n ∈ ExtractGroupNames t ∧ n ≠ REST_API_TEMPLATE_DEFAULT_GROUP) ↔
        (n ∈ t.GROUPS.getD [] ∧ n ≠ REST_API_TEMPLATE_DEFAULT_GROUP) := by
    intro t n
    rw [ExtractGroupNames_eq t]
    constructor
    · rintro ⟨h1, h2⟩
      rcases List.mem_append.mp h1 with h | h
      · exact ⟨h, h2⟩
      · simp at h; exact absurd h h2
    · rintro ⟨h1, h2⟩
      exact ⟨List.mem_append.mpr (Or.inl h1), h2⟩
  refine ⟨?_, ?_, ?_⟩
  · intro reg t
    rw [resolveGroupTemplates, resolveGroupsGo_error_iff]
    constructor
    · rintro ⟨n, h1, h2, h3⟩
      exact ⟨n, ((hmem t n).mp ⟨h1, h2⟩).1, h2, h3⟩
    · rintro ⟨n, h1, h2, h3⟩
      exact ⟨n, ((hmem t n).mpr ⟨h1, h2⟩).1, h2, h3⟩
  · intro reg t e h
    obtain ⟨n, h1, h2, h3, h4⟩ := resolveGroupsGo_error_elim reg (ExtractGroupNames t) e h
    exact ⟨n, h1, ((hmem t n).mp ⟨h2, h3⟩).1, h3, h4⟩
  · intro templates reg cmd args t e ht hg
    exact composeRequest_error_of_resolve ht hg

/-- C6 witness: the resolution theorem applied to the specification's
concrete scenario C — command `C3` declares `GROUPS: ["AUTH"]`, `AUTH` is
unregistered, and `composeRequest` fails with `NotFoundError` naming
`"AUTH"`. -/
theorem resolveGroupTemplates_notFound_iff_witness :
    composeRequest [("C3", ⟨some ["AUTH"], [("URI", TVal.str "status")]⟩)] []
      "C3" [] = Except.error (CError.notFound "AUTH") :=
  resolveGroupTemplates_notFound_iff.2.2
    [("C3", ⟨some ["AUTH"], [("URI", TVal.str "status")]⟩)] [] "C3" []
    ⟨some ["AUTH"], [("URI", TVal.str "status")]⟩ (CError.notFound "AUTH")
    rfl rfl

/-- C7: with the command registered and its groups resolved,
`composeRequest` fails exactly when at least one schema name has no
supplied argument; the `MissingArgumentError` carries the set of *all*
missing names (the schema names without a supplied argument, not just the
first); and when nothing is missing it succeeds, substitution being
applied only in the success branch. -/
theorem composeRequest_missingArgument_iff :
    ∀ (templates : List (String × ReqTemplate))
      (reg : List (String × List (String × TVal)))
      (cmd : String) (args : List (String × String))
      (t : ReqTemplate) (gts : List (List (String × TVal))),
      lookupKey templates cmd = some t →
      resolveGroupTemplates reg t = Except.ok gts →
      ((∀ n, n ∈ (buildSchemaOf t gts).filter
          (fun n => (lookupKey args n).isNone) ↔
          n ∈ buildSchemaOf t gts ∧ lookupKey args n = none) ∧
        ((∃ n ∈ buildSchemaOf t gts, lookupKey args n = none) ↔
          composeRequest templates reg cmd args =
            Except.error (CError.missingArgument
              ((buildSchemaOf t gts).filter
                (fun n => (lookupKey args n).isNone)))) ∧
        ((∀ n ∈ buildSchemaOf t gts, (lookupKey args n).isSome) →
          composeRequest templates reg cmd args = Except.ok
            (substFields (fun n => lookupKey args n)
              (mergeFields t.fields (mergeGroupChain gts))))) := by
  intro templates reg cmd args t gts ht hg
  have hc := @composeRequest_eq_of templates reg cmd args t gts ht hg
  refine ⟨?_, ⟨?_, ?_⟩, ?_⟩
  · intro n
    simp [Finset.mem_filter, Option.isNone_iff_eq_none]
  · rintro ⟨n, hn, hnone⟩
    rw [hc, if_neg]
    intro hempty
    have hmem : n ∈ (buildSchemaOf t gts).filter
        (fun n => (lookupKey args n).isNone) :=
      Finset.mem_filter.mpr ⟨hn, by simp [hnone]⟩
    rw [hempty] at hmem
    simp at hmem
  · intro h
    by_contra hno
    push_neg at hno
    have hempty : (buildSchemaOf t gts).filter
        (fun n => (lookupKey args n).isNone) = ∅ := by
      rw [Finset.filter_eq_empty_iff]
      intro n hn
      simp [Option.isNone_iff_eq_none]
      exact hno n hn
    rw [hc, if_pos hempty] at h
    exact absurd h (by simp)
  · intro hall
    rw [hc, if_pos]
    rw [Finset.filter_eq_empty_iff]
    intro n hn
    have := hall n hn
    cases hl : lookupKey args n with
    | none => rw [hl] at this; simp at this
    | some v => simp [hl]

/-- C7 witness: the composition theorem applied to the specification's
concrete scenario D — `composeRequest("C1", {})` with schema `{"id"}`
fails with `MissingArgumentError` listing exactly `["id"]`. -/
theorem composeRequest_missingArgument_iff_witness :
    composeRequest [("C1", ⟨none, [("URI", TVal.str "cars/{id}/lock")]⟩)] []
      "C1" [] = Except.error (CError.missingArgument {"id"}) := by
  have hschema : buildSchemaOf
      (⟨none, [("URI", TVal.str "cars/{id}/lock")]⟩ : ReqTemplate) [] =
      {"id"} := by
    have hs : SubstringsFromString "cars/{id}/lock" = ["id"] := by decide
    simp [buildSchemaOf, ExtractTemplateVars, SubstringsFromObject,
      SubstringsFromObjectAux, hs]
  have h := (composeRequest_missingArgument_iff
    [("C1", ⟨none, [("URI", TVal.str "cars/{id}/lock")]⟩)] [] "C1" []
    ⟨none, [("URI", TVal.str "cars/{id}/lock")]⟩ [] rfl rfl).2.1
  have hfil : (buildSchemaOf
      (⟨none, [("URI", TVal.str "cars/{id}/lock")]⟩ : ReqTemplate) []).filter
      (fun n => (lookupKey ([] : List (String × String)) n).isNone) =
      {"id"} := by
    rw [hschema]
    rfl
  rw [hfil] at h
  apply h.mp
  rw [hschema]
  exact ⟨"id", by simp, rfl⟩

/-- C8 counterexample: the round trip fails for *arbitrary* argument
values — the template leaf `"{a}"` is well formed with the single known
name `a`, every name is supplied, yet the supplied value `"{b}"` leaves a
`{`/`}` pair in the substituted leaf, which the scanner still extracts. -/
theorem roundTrip_fails_on_brace_valued_args :
    wfChars "{a}".data = true ∧
    (∀ n : String, ((fun _ : String => some "{b}") n).isSome) ∧
    substString (fun _ => some "{b}") "{a}" = "{b}" ∧
    SubstringsFromString "{b}" ≠ [] := by
  refine ⟨by decide, fun n => rfl, by decide, by decide⟩

/-- C8 amended: for every descriptor whose string leaves are well formed
(every open delimiter matched before the string ends, no stray close
delimiter) and contain only known placeholder names — every name the
scanner extracts from a string leaf has a supplied argument value — and
whose supplied values contain no delimiter character, substituting leaves
no `{`/`}` pair in any string leaf of the result: the scanner extracts
nothing from the substituted leaves. -/
theorem roundTrip_no_placeholder_remains :
    ∀ (d : List (String × TVal)) (args : String → Option String),
      (∀ p s, (p, s) ∈ stringLeaves d → wfChars s.data = true) →
      (∀ p s, (p, s) ∈ stringLeaves d →
        ∀ n ∈ SubstringsFromString s, (args n).isSome) →
      (∀ n v, args n = some v → braceFree v.data) →
      ∀ p s, (p, s) ∈ stringLeaves (substFields args d) →
        SubstringsFromString s = [] := by
  intro d args hwf hcov hbf p s hmem
  rw [stringLeaves_substFields] at hmem
  obtain ⟨⟨q, s0⟩, hq, heq⟩ := List.mem_map.mp hmem
  have hs : substString args s0 = s := congrArg Prod.snd heq
  have hwf0 : wfAux s0.data.length s0.data = true := hwf q s0 hq
  have hcov0 : ∀ n ∈ scanChars s0.data, (args (String.mk n)).isSome := by
    intro n hn
    exact hcov q s0 hq (String.mk n)
      (List.mem_map_of_mem (fun l => String.mk l) hn)
  have hres := substAux_braceFree args hbf s0.data.length s0.data le_rfl
    hwf0 hcov0
  rw [← hs]
  simp only [SubstringsFromString, substString, substChars]
  rw [scanChars_of_no_open]
  · rfl
  · exact hres.1

/-- C8 witness: the amended round-trip theorem applied to the
specification's concrete scenario A — substituting `id ↦ "42"` (the one
known name, and the only one supplied) into the template leaf
`"cars/{id}/lock"` leaves no placeholder pair. -/
theorem roundTrip_no_placeholder_remains_witness :
    SubstringsFromString
      (substString (fun n => if n = "id" then some "42" else none)
        "cars/{id}/lock") = [] := by
  apply roundTrip_no_placeholder_remains
    [("URI", TVal.str "cars/{id}/lock")]
    (fun n => if n = "id" then some "42" else none)
    ?_ ?_ ?_ ["URI"]
  · simp [substFields, stringLeaves]
  · intro p s h
    simp [stringLeaves] at h
    rw [h.2]
    decide
  · intro p s h
    simp [stringLeaves] at h
    rw [h.2]
    have hnames : SubstringsFromString "cars/{id}/lock" = ["id"] := by decide
    rw [hnames]
    intro n hn
    simp at hn
    simp [hn]
  · intro n v h
    by_cases hn : n = "id"
    · rw [hn] at h
      simp at h
      rw [← h]
      decide
    · simp [hn] at h
